import Mathlib

/-!
Shallow embedding of the metric lifecycle core of the `@figliolia/metrics`
library: the guarded `Metric` state machine, the `InteractionMetric`
reliability extension, the `ExperienceMetric` child aggregation, and the
`Plugin` registration protocol. Definitions are transcribed from
`src/Metrics/Metric.ts`, `src/Interactions/InteractionMetric.ts`,
`src/Experiences/ExperienceMetric.ts` and `src/Plugin/Plugin.ts`.
-/

namespace Metrics

/-- `Status` enum from `src/Metrics/types.ts`.  The idle state is spelled
`idol` in the source (`Status.idol = "idol"`). -/
inductive Status where
  | idol
  | failed
  | inProgress
  | complete
deriving DecidableEq, Repr

/-- The string value carried by each `Status` enum member in the source. -/
def Status.toStr : Status → String
  | .idol => "idol"
  | .failed => "failed"
  | .inProgress => "inProgress"
  | .complete => "complete"

/-- A status in which a metric has stopped (terminal for a run). -/
def Status.stopped : Status → Bool
  | .complete => true
  | .failed => true
  | _ => false

/-- Events a metric can emit (`CoreEvents` plus `ReliabilityEvents`). -/
inductive MEvent where
  | start
  | stop
  | reset
  | success
  | failure
deriving DecidableEq, Repr

/-- Mutable state of a `Metric` (class `Metric`, `src/Metrics/Metric.ts`).
`plugins` holds each plugin's serialized form, carried opaquely. -/
structure Metric where
  name : String
  stopTime : Int
  startTime : Int
  duration : Int
  plugins : List (String × String)
  status : Status
deriving DecidableEq, Repr

/-- A freshly constructed metric: timers zeroed, status `idol`. -/
def mkMetric (name : String) : Metric :=
  { name := name, stopTime := 0, startTime := 0, duration := 0,
    plugins := [], status := Status.idol }

/-- `Metric.start(time)`: no-op unless status is `idol`; otherwise records
`startTime`, moves to `inProgress` and emits `start`. -/
def Metric.start (s : Metric) (time : Int) : Metric × List MEvent :=
  if s.status ≠ Status.idol then (s, [])
  else ({ s with startTime := time, status := Status.inProgress }, [MEvent.start])

/-- `Metric.stop(time, status)`: no-op unless status is `inProgress`;
otherwise records `stopTime`, `duration = stopTime - startTime`, the given
terminal status, and emits `stop`. -/
def Metric.stop (s : Metric) (time : Int) (st : Status) : Metric × List MEvent :=
  if s.status ≠ Status.inProgress then (s, [])
  else ({ s with stopTime := time, duration := time - s.startTime, status := st },
        [MEvent.stop])

/-- `Metric.reset()`: unconditionally zeroes timers, returns to `idol`,
emits `reset`. -/
def Metric.reset (s : Metric) : Metric × List MEvent :=
  ({ s with duration := 0, stopTime := 0, startTime := 0, status := Status.idol },
   [MEvent.reset])

/-- Shape of `Metric.toJSON()`: exactly the six fields of the object
literal in `src/Metrics/Metric.ts`. -/
structure MetricJSON where
  name : String
  startTime : Int
  stopTime : Int
  duration : Int
  plugins : List (String × String)
  status : String
deriving DecidableEq, Repr

/-- `Metric.toJSON()` from `src/Metrics/Metric.ts`: the `status` field is
the enum's string value. -/
def Metric.toJSON (s : Metric) : MetricJSON :=
  { name := s.name, startTime := s.startTime, stopTime := s.stopTime,
    duration := s.duration, plugins := s.plugins, status := s.status.toStr }

/-- Direct calls available on a plain `Metric`. -/
inductive MAct where
  | mstart (t : Int)
  | mstop (t : Int)
  | mreset
deriving DecidableEq, Repr

/-- One public call on a plain `Metric` (`stop` uses the default
`complete` terminal status). -/
def Metric.stepAct (s : Metric) : MAct → Metric × List MEvent
  | .mstart t => s.start t
  | .mstop t => s.stop t Status.complete
  | .mreset => s.reset

/-- A sequence of public calls on a plain `Metric`. -/
def Metric.runActs (s : Metric) : List MAct → Metric × List MEvent
  | [] => (s, [])
  | a :: rest =>
    let r := s.stepAct a
    let r2 := r.1.runActs rest
    (r2.1, r.2 ++ r2.2)

/-- Mutable state of an `InteractionMetric`
(`src/Interactions/InteractionMetric.ts`): the base metric fields plus the
outcome payload and flags.  Payloads are modelled as strings. -/
structure InteractionMetric where
  base : Metric
  data : Option String
  failed : Bool
  succeeded : Bool
deriving DecidableEq, Repr

/-- A freshly constructed interaction metric. -/
def mkInteraction (name : String) : InteractionMetric :=
  { base := mkMetric name, data := none, failed := false, succeeded := false }

/-- `InteractionMetric.succeed(data, stopTime)`: sets `data`,
`failed = false`, `succeeded = true`, performs the guarded base
`stop(stopTime)` (default `complete` status), then emits `success`. -/
def InteractionMetric.succeed (s : InteractionMetric) (d : Option String)
    (stopTime : Int) : InteractionMetric × List MEvent :=
  let s1 := { s with data := d, failed := false, succeeded := true }
  let r := s1.base.stop stopTime Status.complete
  ({ s1 with base := r.1 }, r.2 ++ [MEvent.success])

/-- `InteractionMetric.fail(data, stopTime)`: sets `data`, `failed = true`,
`succeeded = false`, performs the guarded base `stop(stopTime, failed)`,
then emits `failure`. -/
def InteractionMetric.fail (s : InteractionMetric) (d : Option String)
    (stopTime : Int) : InteractionMetric × List MEvent :=
  let s1 := { s with data := d, failed := true, succeeded := false }
  let r := s1.base.stop stopTime Status.failed
  ({ s1 with base := r.1 }, r.2 ++ [MEvent.failure])

/-- `InteractionMetric.reset()`: clears the outcome fields then delegates
to the base reset. -/
def InteractionMetric.resetI (s : InteractionMetric) : InteractionMetric × List MEvent :=
  let s1 := { s with failed := false, data := none, succeeded := false }
  let r := s1.base.reset
  ({ s1 with base := r.1 }, r.2)

/-- Inherited `start` on an `InteractionMetric`. -/
def InteractionMetric.startI (s : InteractionMetric) (t : Int) :
    InteractionMetric × List MEvent :=
  let r := s.base.start t
  ({ s with base := r.1 }, r.2)

/-- Inherited `stop` on an `InteractionMetric` (default `complete`). -/
def InteractionMetric.stopI (s : InteractionMetric) (t : Int) :
    InteractionMetric × List MEvent :=
  let r := s.base.stop t Status.complete
  ({ s with base := r.1 }, r.2)

/-- Public calls available on an `InteractionMetric`. -/
inductive Act where
  | astart (t : Int)
  | astop (t : Int)
  | asucceed (d : Option String) (t : Int)
  | afail (d : Option String) (t : Int)
  | areset
deriving DecidableEq, Repr

/-- One public call on an `InteractionMetric`. -/
def InteractionMetric.stepAct (s : InteractionMetric) : Act → InteractionMetric × List MEvent
  | .astart t => s.startI t
  | .astop t => s.stopI t
  | .asucceed d t => s.succeed d t
  | .afail d t => s.fail d t
  | .areset => s.resetI

/-- A sequence of public calls on an `InteractionMetric`. -/
def InteractionMetric.runActs (s : InteractionMetric) : List Act → InteractionMetric × List MEvent
  | [] => (s, [])
  | a :: rest =>
    let r := s.stepAct a
    let r2 := r.1.runActs rest
    (r2.1, r.2 ++ r2.2)

/-- `Math.max` over a list of stop times (only ever applied to the
non-empty child list). -/
def listMax : List Int → Int
  | [] => 0
  | x :: xs => xs.foldl max x

/-- Minimum of a list, used to state the derived experience start time. -/
def listMin : List Int → Int
  | [] => 0
  | x :: xs => xs.foldl min x

/-- State of an `ExperienceMetric` (`src/Experiences/ExperienceMetric.ts`):
the base metric fields, the child `metrics` list, the name-keyed
`reference` table of completion-tracking IDs, and the `completedMetrics`
set (a duplicate-free list). -/
structure ExperienceMetric where
  base : Metric
  metrics : List Metric
  reference : List (String × Nat)
  completedMetrics : List (Option Nat)
deriving DecidableEq, Repr

/-- `indexMetrics()` with the auto-incrementing ID counter at `k`: walks
the children in order and assigns `reference[metric.name] = IDs.get()`. -/
def buildReferenceFrom (k : Nat) : List String → List (String × Nat)
  | [] => []
  | n :: rest => (n, k) :: buildReferenceFrom (k + 1) rest

/-- `indexMetrics()`: the IDs are `0, 1, 2, …` in child order.  Later
assignments to the same name overwrite earlier ones, which `refLookup`
realises by taking the last binding. -/
def buildReference (names : List String) : List (String × Nat) :=
  buildReferenceFrom 0 names

/-- Property lookup on the `reference` table: the value of the last
assignment to the key, `none` if the key was never assigned. -/
def refLookup (tbl : List (String × Nat)) (k : String) : Option Nat :=
  (tbl.reverse.find? fun p => p.1 == k).map fun p => p.2

/-- Constructing an `ExperienceMetric` over freshly created children with
the given names: indexes the children and starts with an empty
completed-set. -/
def mkExperience (name : String) (childNames : List String) : ExperienceMetric :=
  { base := mkMetric name, metrics := childNames.map mkMetric,
    reference := buildReference childNames, completedMetrics := [] }

/-- The per-child `stop` listener body from `listenForStops()`: look up the
child's ID by name; if it is not yet in the completed-set, add it, and if
the set now covers every child, perform the experience's own `stop` at the
max of all children's stop times. -/
def onChildStop (e : ExperienceMetric) (childName : String) :
    ExperienceMetric × List MEvent :=
  let id := refLookup e.reference childName
  if id ∈ e.completedMetrics then (e, [])
  else
    let e1 := { e with completedMetrics := id :: e.completedMetrics }
    if e1.completedMetrics.length = e1.metrics.length then
      let r := e1.base.stop (listMax (e1.metrics.map fun m => m.stopTime)) Status.complete
      ({ e1 with base := r.1 }, r.2)
    else (e1, [])

/-- The per-child `start` listener body from `listenForStarts()`: if the
experience is still `idol`, perform its own (guarded) `start` at the
child's start time; otherwise lower `startTime` to the minimum without
emitting anything. -/
def onChildStart (e : ExperienceMetric) (childStartTime : Int) :
    ExperienceMetric × List MEvent :=
  if e.base.status = Status.idol then
    let r := e.base.start childStartTime
    ({ e with base := r.1 }, r.2)
  else
    ({ e with base := { e.base with startTime := min childStartTime e.base.startTime } }, [])

/-- Operations that can reach an `ExperienceMetric`'s state: public calls
on a child (`start` / `stop` / `succeed` / `fail` / `reset`, by index) and
public calls on the experience itself. -/
inductive EOp where
  | cstart (i : Nat) (t : Int)
  | cstop (i : Nat) (t : Int)
  | csucceed (i : Nat) (t : Int)
  | cfail (i : Nat) (t : Int)
  | creset (i : Nat)
  | estart (t : Int)
  | estop (t : Int)
  | ereset
deriving DecidableEq, Repr

/-- A child's guarded stop with terminal status `st`; when the child emits
`stop`, the experience's stop listener runs.  The returned event list
holds the events emitted by the experience itself. -/
def ExperienceMetric.childStopWith (e : ExperienceMetric) (i : Nat) (t : Int)
    (st : Status) : ExperienceMetric × List MEvent :=
  match e.metrics[i]? with
  | none => (e, [])
  | some c =>
    let r := c.stop t st
    if r.2.isEmpty then (e, [])
    else onChildStop { e with metrics := e.metrics.set i r.1 } r.1.name

/-- One operation on the experience system. -/
def ExperienceMetric.step (e : ExperienceMetric) : EOp → ExperienceMetric × List MEvent
  | .cstart i t =>
    match e.metrics[i]? with
    | none => (e, [])
    | some c =>
      let r := c.start t
      if r.2.isEmpty then (e, [])
      else onChildStart { e with metrics := e.metrics.set i r.1 } r.1.startTime
  | .cstop i t => e.childStopWith i t Status.complete
  | .csucceed i t => e.childStopWith i t Status.complete
  | .cfail i t => e.childStopWith i t Status.failed
  | .creset i =>
    match e.metrics[i]? with
    | none => (e, [])
    | some c => ({ e with metrics := e.metrics.set i (c.reset).1 }, [])
  | .estart t =>
    let r := e.base.start t
    ({ e with base := r.1 }, r.2)
  | .estop t =>
    let r := e.base.stop t Status.complete
    ({ e with base := r.1 }, r.2)
  | .ereset =>
    let e1 := { e with metrics := e.metrics.map fun c => (Metric.reset c).1 }
    let r := e1.base.reset
    ({ e1 with base := r.1, completedMetrics := [] }, r.2)

/-- Run a sequence of operations, accumulating the experience's own
emitted events. -/
def ExperienceMetric.runAcc (e : ExperienceMetric) (log : List MEvent) :
    List EOp → ExperienceMetric × List MEvent
  | [] => (e, log)
  | op :: rest =>
    let r := e.step op
    ExperienceMetric.runAcc r.1 (log ++ r.2) rest

/-- Run a sequence of operations from an empty log. -/
def ExperienceMetric.run (e : ExperienceMetric) (ops : List EOp) :
    ExperienceMetric × List MEvent :=
  e.runAcc [] ops

/-- Number of occurrences of an event in a log. -/
def countEv (log : List MEvent) (ev : MEvent) : Nat :=
  log.count ev

/-- A child has started (left the idle state). -/
def startedB (c : Metric) : Bool :=
  c.status != Status.idol

/-- A child has stopped. -/
def stoppedB (c : Metric) : Bool :=
  c.status.stopped

/-- Some child of the experience has started. -/
def someStartedB (e : ExperienceMetric) : Bool :=
  e.metrics.any startedB

/-- Every child of the experience has stopped. -/
def allStoppedB (e : ExperienceMetric) : Bool :=
  e.metrics.all stoppedB

/-- Operations driving the experience only through its children's `start`
and `stop` transitions (one aggregation run). -/
def basicOp : EOp → Bool
  | .cstart _ _ => true
  | .cstop _ _ => true
  | .csucceed _ _ => true
  | .cfail _ _ => true
  | _ => false

/-- An operation that would make a child perform a start transition while
the experience is already stopped (the case in which the start listener
mutates `startTime` underneath a final `duration`). -/
def badStart (e : ExperienceMetric) : EOp → Bool
  | .cstart i _ =>
    e.base.status.stopped &&
      (match e.metrics[i]? with
       | some c => c.status == Status.idol
       | none => false)
  | _ => false

/-- A run in which no child start transition happens while the experience
is stopped. -/
def goodRun (e : ExperienceMetric) : List EOp → Bool
  | [] => true
  | op :: rest => !badStart e op && goodRun (e.step op).1 rest

/-- The documented timing invariant for a single metric's fields. -/
def invMetric (m : Metric) : Prop :=
  (m.status.stopped = true → m.duration = m.stopTime - m.startTime) ∧
  (m.status = Status.idol → m.stopTime = 0 ∧ m.duration = 0)

/-- The timing invariant for an experience: its own fields and every
child's fields. -/
def invExperience (e : ExperienceMetric) : Prop :=
  invMetric e.base ∧ ∀ c ∈ e.metrics, invMetric c

/-- Invariant of an experience driven only through its children's `start`
and `stop` transitions, relative to the construction child-name list `cs`
and the experience's accumulated event log. -/
structure ExpInv (cs : List String) (e : ExperienceMetric) (log : List MEvent) : Prop where
  ref_eq : e.reference = buildReference cs
  names_eq : e.metrics.map (fun c => c.name) = cs
  comp_mem : ∀ x ∈ e.completedMetrics, ∃ (i : Nat) (c : Metric), e.metrics[i]? = some c ∧
    stoppedB c = true ∧ x = refLookup e.reference c.name
  comp_nodup : e.completedMetrics.Nodup
  comp_le : e.completedMetrics.length ≤ e.metrics.countP stoppedB
  comp_full : 0 < e.completedMetrics.length →
    e.completedMetrics.length = e.metrics.length → e.base.status.stopped = true
  stopped_all : e.base.status.stopped = true →
    (∀ (i : Nat) (c : Metric), e.metrics[i]? = some c → stoppedB c = true) ∧
    e.base.status = Status.complete ∧
    e.base.stopTime = listMax (e.metrics.map fun m => m.stopTime)
  stop_count_pos : e.base.status.stopped = true → countEv log MEvent.stop = 1
  stop_count_zero : e.base.status.stopped = false → countEv log MEvent.stop = 0
  start_count_pos : e.base.status ≠ Status.idol → countEv log MEvent.start = 1
  start_count_zero : e.base.status = Status.idol → countEv log MEvent.start = 0
  idol_no_start : e.base.status = Status.idol →
    ∀ (i : Nat) (c : Metric), e.metrics[i]? = some c → c.status = Status.idol
  started_not_idol : (∃ (i : Nat) (c : Metric), e.metrics[i]? = some c ∧ startedB c = true) →
    e.base.status ≠ Status.idol
  start_lb : ∀ (i : Nat) (c : Metric), e.metrics[i]? = some c → startedB c = true →
    e.base.startTime ≤ c.startTime
  start_wit : e.base.status ≠ Status.idol → ∃ (i : Nat) (c : Metric), e.metrics[i]? = some c ∧
    startedB c = true ∧ c.startTime = e.base.startTime
  comp_count : cs.Nodup → e.completedMetrics.length = e.metrics.countP stoppedB

/-- `Plugin` registration state (`src/Plugin/Plugin.ts`): the `registered`
flag and the plugin prototype's own method names (the overridden handlers
plus `"constructor"`). -/
structure PluginState where
  registered : Bool
  methods : List String
deriving DecidableEq, Repr

/-- A freshly constructed plugin with the given own-method names. -/
def mkPlugin (methods : List String) : PluginState :=
  { registered := false, methods := methods }

/-- The subscriptions one successful `register(metric)` creates: the
plugin's own methods filtered by `validateEvent` (member of the metric's
event set and not `"constructor"`). -/
def subscriptionsOf (methods : List String) (events : List String) : List String :=
  methods.filter fun e => events.contains e && e != "constructor"

/-- `Plugin.register(metric)`: if already registered, warn and create no
subscriptions; otherwise mark registered and subscribe the validated
handlers.  Returns (new plugin state, new subscriptions, warned?). -/
def PluginState.register (p : PluginState) (events : List String) :
    PluginState × List String × Bool :=
  if p.registered then (p, [], true)
  else ({ p with registered := true }, subscriptionsOf p.methods events, false)

/-- Repeated `register` calls (each with the target metric's event set),
accumulating every subscription created. -/
def registerAll (p : PluginState) (calls : List (List String)) :
    PluginState × List String :=
  calls.foldl (fun acc ev =>
    let r := acc.1.register ev
    (r.1, acc.2 ++ r.2.1)) (p, [])

/-- How many of a plugin's subscriptions fire when the metric emits the
event `ev` (the emitter invokes each subscription under that name once). -/
def invokedCount (subs : List String) (ev : String) : Nat :=
  subs.count ev

/-- The core metric event set (`CoreEvents`). -/
def coreEvents : List String := ["start", "stop", "reset"]

/-- The interaction metric event set (`CoreEvents` plus
`ReliabilityEvents`). -/
def interactionEvents : List String :=
  ["start", "stop", "reset", "success", "failure"]

/-! ## Helper lemmas -/

/-- Once a plugin is registered, any further sequence of `register` calls
adds no subscriptions and leaves the plugin state unchanged. -/
theorem registerAll_of_registered (rest : List (List String)) :
    ∀ (q : PluginState) (acc : List String), q.registered = true →
      (rest.foldl (fun acc ev =>
        let r := acc.1.register ev
        (r.1, acc.2 ++ r.2.1)) (q, acc)) = (q, acc) := by
  induction rest with
  | nil => intro q acc _; rfl
  | cons E rest ih =>
    intro q acc hq
    rw [List.foldl_cons]
    have hstep : (let r := (q, acc).1.register E
        ((r.1 : PluginState), (q, acc).2 ++ r.2.1)) = (q, acc) := by
      simp [PluginState.register, hq]
    rw [hstep]
    exact ih q acc hq

/-- Setting an index to the value it already holds leaves a list
unchanged. -/
theorem set_self_of_getElem {α : Type} (l : List α) :
    ∀ (i : Nat) (a : α), l[i]? = some a → l.set i a = l := by
  induction l with
  | nil => intro i a h; simp at h
  | cons x xs ih =>
    intro i a h
    cases i with
    | zero => simp_all
    | succ j =>
      simp only [List.getElem?_cons_succ] at h
      simp [List.set_cons_succ, ih j a h]

/-- Unfolding one table entry in a `refLookup`. -/
theorem refLookup_cons (n : String) (k : Nat) (T : List (String × Nat)) (c : String) :
    refLookup ((n, k) :: T) c
      = (refLookup T c).or (if n == c then some k else none) := by
  unfold refLookup
  rw [List.reverse_cons, List.find?_append]
  cases hT : List.find? (fun p => p.1 == c) T.reverse with
  | some p => simp [hT]
  | none =>
    simp only [hT, Option.none_or, Option.map_none', List.find?]
    by_cases hnc : (n == c) = true
    · simp [hnc]
    · simp [hnc, Bool.of_not_eq_true hnc]

/-- A name that never occurs among the indexed children resolves to no
completion-tracking ID. -/
theorem refLookup_from_not_mem (cs : List String) :
    ∀ (k : Nat) (c : String), c ∉ cs → refLookup (buildReferenceFrom k cs) c = none := by
  induction cs with
  | nil => intro k c _; rfl
  | cons n rest ih =>
    intro k c h
    rw [buildReferenceFrom, refLookup_cons]
    have h1 : c ∉ rest := fun hm => h (List.mem_cons_of_mem _ hm)
    have h2 : n ≠ c := fun he => h (he ▸ List.mem_cons_self _ _)
    rw [ih _ _ h1]
    simp [h2]

/-- With duplicate-free child names, the `i`-th child's name resolves to
the `i`-th completion-tracking ID. -/
theorem refLookup_from_nodup (cs : List String) :
    ∀ (k i : Nat) (c : String), cs.Nodup → cs[i]? = some c →
      refLookup (buildReferenceFrom k cs) c = some (k + i) := by
  induction cs with
  | nil => intro k i c _ hc; simp at hc
  | cons n rest ih =>
    intro k i c hn hc
    rw [buildReferenceFrom, refLookup_cons]
    cases i with
    | zero =>
      have hcn : c = n := by simpa using hc.symm
      have hnr : n ∉ rest := (List.nodup_cons.mp hn).1
      subst hcn
      rw [refLookup_from_not_mem rest _ c hnr]
      simp
    | succ j =>
      have hrest : rest[j]? = some c := by simpa using hc
      have hnd : rest.Nodup := (List.nodup_cons.mp hn).2
      rw [ih _ _ _ hnd hrest, Option.or_some]
      congr 1
      omega

/-- Children of a fresh experience all carry their construction names. -/
theorem map_name_mkMetric (cs : List String) :
    (cs.map mkMetric).map (fun c => c.name) = cs := by
  induction cs with
  | nil => rfl
  | cons n rest ih => simp [mkMetric, ih]

/-- The invariant holds at construction time. -/
theorem expInv_init (nm : String) (cs : List String) :
    ExpInv cs (mkExperience nm cs) [] := by
  refine ⟨rfl, map_name_mkMetric cs, ?_, ?_, ?_, ?_, ?_, ?_, ?_, ?_, ?_, ?_, ?_, ?_, ?_, ?_⟩
  · intro x hx; simp [mkExperience] at hx
  · simp [mkExperience]
  · simp [mkExperience]
  · intro h1 h2; simp [mkExperience] at h1
  · intro hst; simp [mkExperience, mkMetric, Status.stopped] at hst
  · intro hst; simp [mkExperience, mkMetric, Status.stopped] at hst
  · intro _; rfl
  · intro hne; exact absurd rfl hne
  · intro _; rfl
  · intro _ i c hc
    simp only [mkExperience, List.getElem?_map, Option.map_eq_some'] at hc
    obtain ⟨x, _, rfl⟩ := hc
    rfl
  · rintro ⟨i, c, hc, hstart⟩
    simp only [mkExperience, List.getElem?_map, Option.map_eq_some'] at hc
    obtain ⟨x, _, rfl⟩ := hc
    simp [startedB, mkMetric] at hstart
  · intro i c hc hs
    simp only [mkExperience, List.getElem?_map, Option.map_eq_some'] at hc
    obtain ⟨x, _, rfl⟩ := hc
    simp [startedB, mkMetric] at hs
  · intro hne; exact absurd rfl hne
  · intro _
    simp only [mkExperience, List.length_nil]
    symm
    rw [List.countP_eq_zero]
    intro a ha
    obtain ⟨x, _, rfl⟩ := List.mem_map.mp ha
    simp [stoppedB, mkMetric, Status.stopped]

/-- Lookup in a list after a valid in-bounds update. -/
theorem getElem?_set_of_valid {α : Type} (l : List α) (i : Nat) (a b : α)
    (h : l[i]? = some a) :
    ∀ j, (l.set i b)[j]? = if i = j then some b else l[j]? := by
  intro j
  obtain ⟨hi, -⟩ := List.getElem?_eq_some_iff.mp h
  rw [List.getElem?_set]
  by_cases hij : i = j
  · simp [hij, hij ▸ hi]
  · simp [hij]

/-- Updating an entry from `p`-false to `p`-true raises a `countP` by
one. -/
theorem countP_set_true {α : Type} (p : α → Bool) (l : List α) :
    ∀ (i : Nat) (a b : α), l[i]? = some a → p a = false → p b = true →
      (l.set i b).countP p = l.countP p + 1 := by
  induction l with
  | nil => intro i a b h _ _; simp at h
  | cons x xs ih =>
    intro i a b h ha hb
    cases i with
    | zero =>
      simp only [List.getElem?_cons_zero, Option.some_inj] at h
      subst h
      simp [List.set_cons_zero, List.countP_cons, ha, hb]
    | succ j =>
      simp only [List.getElem?_cons_succ] at h
      simp only [List.set_cons_succ, List.countP_cons, ih j a b h ha hb]
      omega

/-- Updating an entry without changing its `p`-value preserves a
`countP`. -/
theorem countP_set_eq {α : Type} (p : α → Bool) (l : List α) :
    ∀ (i : Nat) (a b : α), l[i]? = some a → p a = p b →
      (l.set i b).countP p = l.countP p := by
  induction l with
  | nil => intro i a b h _; simp at h
  | cons x xs ih =>
    intro i a b h hab
    cases i with
    | zero =>
      simp only [List.getElem?_cons_zero, Option.some_inj] at h
      subst h
      simp [List.set_cons_zero, List.countP_cons, hab]
    | succ j =>
      simp only [List.getElem?_cons_succ] at h
      simp [List.set_cons_succ, List.countP_cons, ih j a b h hab]

/-- The stop listener preserves the invariant: a child at index `i` in
state `c` (in progress) performs a stop transition to `c'` and the
listener body runs. -/
theorem expInv_onChildStop (cs : List String) (e : ExperienceMetric) (log : List MEvent)
    (i : Nat) (c c' : Metric)
    (h : ExpInv cs e log)
    (hm : e.metrics[i]? = some c)
    (hcs : c.status = Status.inProgress)
    (hname : c'.name = c.name)
    (hstart : c'.startTime = c.startTime)
    (hstopped : stoppedB c' = true)
    (hstarted : startedB c' = true) :
    ExpInv cs (onChildStop { e with metrics := e.metrics.set i c' } c.name).1
      (log ++ (onChildStop { e with metrics := e.metrics.set i c' } c.name).2) := by
  have hget : ∀ j, (e.metrics.set i c')[j]? = if i = j then some c' else e.metrics[j]? :=
    getElem?_set_of_valid e.metrics i c c' hm
  have hcsi : cs[i]? = some c.name := by
    rw [← h.names_eq]; simp [List.getElem?_map, hm]
  have hnames1 : (e.metrics.set i c').map (fun x => x.name) = cs := by
    rw [List.map_set, hname, h.names_eq, set_self_of_getElem cs i c.name hcsi]
  have hstartedc : startedB c = true := by simp [startedB, hcs]
  have hnotstopc : stoppedB c = false := by simp [stoppedB, hcs, Status.stopped]
  have hbne : e.base.status ≠ Status.idol := h.started_not_idol ⟨i, c, hm, hstartedc⟩
  have hbnotstop : e.base.status.stopped = false := by
    cases hbs : e.base.status.stopped
    · rfl
    · exfalso
      have hc2 := (h.stopped_all hbs).1 i c hm
      rw [hnotstopc] at hc2
      exact Bool.noConfusion hc2
  have hbinP : e.base.status = Status.inProgress := by
    cases hb : e.base.status
    · exact absurd hb hbne
    · rw [hb] at hbnotstop; exact Bool.noConfusion hbnotstop
    · rfl
    · rw [hb] at hbnotstop; exact Bool.noConfusion hbnotstop
  have hcountP1 : (e.metrics.set i c').countP stoppedB = e.metrics.countP stoppedB + 1 :=
    countP_set_true stoppedB e.metrics i c c' hm hnotstopc hstopped
  have hlen1 : (e.metrics.set i c').length = e.metrics.length :=
    List.length_set e.metrics i c'
  have hmem_new : ∀ x ∈ e.completedMetrics, ∃ (j : Nat) (cj : Metric),
      (e.metrics.set i c')[j]? = some cj ∧ stoppedB cj = true ∧
      x = refLookup e.reference cj.name := by
    intro x hx
    obtain ⟨j, cj, hj, hstopj, heq⟩ := h.comp_mem x hx
    by_cases hij : i = j
    · exfalso
      subst hij
      rw [hm] at hj
      cases hj
      rw [hnotstopc] at hstopj
      exact Bool.noConfusion hstopj
    · exact ⟨j, cj, by rw [hget j]; simp [hij, hj], hstopj, heq⟩
  have hlb_new : ∀ (j : Nat) (cj : Metric), (e.metrics.set i c')[j]? = some cj →
      startedB cj = true → e.base.startTime ≤ cj.startTime := by
    intro j cj hj hsj
    by_cases hij : i = j
    · subst hij
      rw [hget i, if_pos rfl] at hj
      cases hj
      rw [hstart]
      exact h.start_lb i c hm hstartedc
    · rw [hget j, if_neg hij] at hj
      exact h.start_lb j cj hj hsj
  have hwit_new : ∃ (j : Nat) (cj : Metric), (e.metrics.set i c')[j]? = some cj ∧
      startedB cj = true ∧ cj.startTime = e.base.startTime := by
    obtain ⟨j, cj, hj, hsj, heqj⟩ := h.start_wit hbne
    by_cases hij : i = j
    · subst hij
      rw [hm] at hj
      cases hj
      exact ⟨i, c', by rw [hget i]; simp, hstarted, by rw [hstart]; exact heqj⟩
    · exact ⟨j, cj, by rw [hget j]; simp [hij, hj], hsj, heqj⟩
  have hid_i : ∀ (hn : cs.Nodup), refLookup e.reference c.name = some i := by
    intro hn
    rw [h.ref_eq]
    simpa using refLookup_from_nodup cs 0 i c.name hn hcsi
  have hskip : ∀ (hn : cs.Nodup), refLookup e.reference c.name ∉ e.completedMetrics := by
    intro hn hmem
    obtain ⟨j, cj, hj, hstopj, heq⟩ := h.comp_mem _ hmem
    have hcsj : cs[j]? = some cj.name := by
      rw [← h.names_eq]; simp [List.getElem?_map, hj]
    have hidj : refLookup e.reference cj.name = some j := by
      rw [h.ref_eq]
      simpa using refLookup_from_nodup cs 0 j cj.name hn hcsj
    rw [hid_i hn, hidj] at heq
    cases heq
    rw [hm] at hj
    cases hj
    rw [hnotstopc] at hstopj
    exact Bool.noConfusion hstopj
  by_cases hidmem : refLookup e.reference c.name ∈ e.completedMetrics
  · -- the child's ID is already marked complete: nothing happens
    have hred : onChildStop { e with metrics := e.metrics.set i c' } c.name
        = ({ e with metrics := e.metrics.set i c' }, []) := by
      simp [onChildStop, hidmem]
    rw [hred, List.append_nil]
    refine ⟨h.ref_eq, hnames1, hmem_new, h.comp_nodup, ?_, ?_, ?_, ?_, ?_, ?_, ?_, ?_, ?_,
      hlb_new, ?_, ?_⟩
    · show e.completedMetrics.length ≤ (e.metrics.set i c').countP stoppedB
      rw [hcountP1]
      exact Nat.le_succ_of_le h.comp_le
    · show 0 < e.completedMetrics.length → e.completedMetrics.length
        = (e.metrics.set i c').length → e.base.status.stopped = true
      intro h1 h2
      rw [hlen1] at h2
      exact h.comp_full h1 h2
    · show e.base.status.stopped = true → _
      intro hstop
      rw [hbnotstop] at hstop
      exact Bool.noConfusion hstop
    · show e.base.status.stopped = true → _
      intro hstop
      rw [hbnotstop] at hstop
      exact Bool.noConfusion hstop
    · show e.base.status.stopped = false → countEv log MEvent.stop = 0
      exact h.stop_count_zero
    · show e.base.status ≠ Status.idol → countEv log MEvent.start = 1
      exact h.start_count_pos
    · show e.base.status = Status.idol → countEv log MEvent.start = 0
      exact h.start_count_zero
    · show e.base.status = Status.idol → _
      intro hidol
      exact absurd hidol hbne
    · intro _
      exact hbne
    · show e.base.status ≠ Status.idol → _
      intro _
      exact hwit_new
    · intro hn
      exact absurd hidmem (hskip hn)
  · -- new completion: the ID is added
    by_cases hlen : e.completedMetrics.length + 1 = e.metrics.length
    · -- the completed-set now covers every child: the experience stops
      have hred : onChildStop { e with metrics := e.metrics.set i c' } c.name
          = ({ e with
                  metrics := e.metrics.set i c',
                  completedMetrics := refLookup e.reference c.name :: e.completedMetrics,
                  base := { e.base with
                              stopTime := listMax ((e.metrics.set i c').map fun m => m.stopTime),
                              duration := listMax ((e.metrics.set i c').map fun m => m.stopTime)
                                - e.base.startTime,
                              status := Status.complete } },
             [MEvent.stop]) := by
        simp [onChildStop, hidmem, hlen1, hlen, Metric.stop, hbinP]
      rw [hred]
      have hcountfull : (e.metrics.set i c').countP stoppedB = (e.metrics.set i c').length := by
        have hle2 : (e.metrics.set i c').countP stoppedB ≤ (e.metrics.set i c').length :=
          List.countP_le_length stoppedB
        rw [hcountP1, hlen1] at hle2 ⊢
        have hle3 := h.comp_le
        omega
      have hall : ∀ (j : Nat) (cj : Metric), (e.metrics.set i c')[j]? = some cj →
          stoppedB cj = true := by
        intro j cj hj
        exact List.countP_eq_length.mp hcountfull cj (List.getElem?_mem hj)
      refine ⟨h.ref_eq, hnames1, ?_, ?_, ?_, ?_, ?_, ?_, ?_, ?_, ?_, ?_, ?_, ?_, ?_, ?_⟩
      · intro x hx
        rcases List.mem_cons.mp hx with hx1 | hx2
        · exact ⟨i, c', by rw [hget i]; simp, hstopped, by rw [hname]; exact hx1⟩
        · exact hmem_new x hx2
      · exact List.nodup_cons.mpr ⟨hidmem, h.comp_nodup⟩
      · show (refLookup e.reference c.name :: e.completedMetrics).length
          ≤ (e.metrics.set i c').countP stoppedB
        rw [hcountfull, List.length_cons, hlen1]
        omega
      · intro _ _
        rfl
      · intro _
        refine ⟨hall, rfl, rfl⟩
      · show _ → countEv (log ++ [MEvent.stop]) MEvent.stop = 1
        intro _
        rw [countEv, List.count_append]
        have hz := h.stop_count_zero hbnotstop
        rw [countEv] at hz
        rw [hz]
        rfl
      · intro hf
        exact Bool.noConfusion hf
      · show _ → countEv (log ++ [MEvent.stop]) MEvent.start = 1
        intro _
        rw [countEv, List.count_append]
        have ho := h.start_count_pos hbne
        rw [countEv] at ho
        rw [ho]
        rfl
      · intro hf
        exact Status.noConfusion hf
      · intro hf
        exact Status.noConfusion hf
      · intro _
        show Status.complete ≠ Status.idol
        intro hf
        exact Status.noConfusion hf
      · show ∀ (j : Nat) (cj : Metric), _ → _ → e.base.startTime ≤ cj.startTime
        exact hlb_new
      · intro _
        show ∃ (j : Nat) (cj : Metric), (e.metrics.set i c')[j]? = some cj ∧
          startedB cj = true ∧ cj.startTime = e.base.startTime
        exact hwit_new
      · intro _
        show (refLookup e.reference c.name :: e.completedMetrics).length
          = (e.metrics.set i c').countP stoppedB
        rw [hcountfull, List.length_cons, hlen1]
        omega
    · -- not yet complete: only the bookkeeping set grows
      have hred : onChildStop { e with metrics := e.metrics.set i c' } c.name
          = ({ e with
                  metrics := e.metrics.set i c',
                  completedMetrics := refLookup e.reference c.name :: e.completedMetrics },
             []) := by
        simp [onChildStop, hidmem, hlen1, hlen]
      rw [hred, List.append_nil]
      refine ⟨h.ref_eq, hnames1, ?_, ?_, ?_, ?_, ?_, ?_, ?_, ?_, ?_, ?_, ?_, ?_, ?_, ?_⟩
      · intro x hx
        rcases List.mem_cons.mp hx with hx1 | hx2
        · exact ⟨i, c', by rw [hget i]; simp, hstopped, by rw [hname]; exact hx1⟩
        · exact hmem_new x hx2
      · exact List.nodup_cons.mpr ⟨hidmem, h.comp_nodup⟩
      · show (refLookup e.reference c.name :: e.completedMetrics).length
          ≤ (e.metrics.set i c').countP stoppedB
        rw [hcountP1, List.length_cons]
        have := h.comp_le
        omega
      · show 0 < _ → (refLookup e.reference c.name :: e.completedMetrics).length
          = (e.metrics.set i c').length → _
        intro _ h2
        rw [List.length_cons, hlen1] at h2
        exact absurd h2 hlen
      · show e.base.status.stopped = true → _
        intro hstop
        rw [hbnotstop] at hstop
        exact Bool.noConfusion hstop
      · show e.base.status.stopped = true → _
        intro hstop
        rw [hbnotstop] at hstop
        exact Bool.noConfusion hstop
      · show e.base.status.stopped = false → countEv log MEvent.stop = 0
        exact h.stop_count_zero
      · show e.base.status ≠ Status.idol → countEv log MEvent.start = 1
        exact h.start_count_pos
      · show e.base.status = Status.idol → countEv log MEvent.start = 0
        exact h.start_count_zero
      · show e.base.status = Status.idol → _
        intro hidol
        exact absurd hidol hbne
      · intro _
        exact hbne
      · exact hlb_new
      · intro _
        exact hwit_new
      · intro hn
        show (refLookup e.reference c.name :: e.completedMetrics).length
          = (e.metrics.set i c').countP stoppedB
        rw [hcountP1, List.length_cons, h.comp_count hn]

/-- The start listener preserves the invariant: a child at index `i` in
state `c` (idle) performs a start transition to `c'` at time `t` and the
listener body runs. -/
theorem expInv_onChildStart (cs : List String) (e : ExperienceMetric) (log : List MEvent)
    (i : Nat) (c c' : Metric) (t : Int)
    (h : ExpInv cs e log)
    (hm : e.metrics[i]? = some c)
    (hcs : c.status = Status.idol)
    (hname : c'.name = c.name)
    (hstart : c'.startTime = t)
    (hstatus : c'.status = Status.inProgress) :
    ExpInv cs (onChildStart { e with metrics := e.metrics.set i c' } t).1
      (log ++ (onChildStart { e with metrics := e.metrics.set i c' } t).2) := by
  have hget : ∀ j, (e.metrics.set i c')[j]? = if i = j then some c' else e.metrics[j]? :=
    getElem?_set_of_valid e.metrics i c c' hm
  have hcsi : cs[i]? = some c.name := by
    rw [← h.names_eq]; simp [List.getElem?_map, hm]
  have hnames1 : (e.metrics.set i c').map (fun x => x.name) = cs := by
    rw [List.map_set, hname, h.names_eq, set_self_of_getElem cs i c.name hcsi]
  have hnotstopc : stoppedB c = false := by simp [stoppedB, hcs, Status.stopped]
  have hnotstartc : startedB c = false := by simp [startedB, hcs]
  have hc'started : startedB c' = true := by simp [startedB, hstatus]
  have hc'notstop : stoppedB c' = false := by simp [stoppedB, hstatus, Status.stopped]
  have hcountP_eq : (e.metrics.set i c').countP stoppedB = e.metrics.countP stoppedB :=
    countP_set_eq stoppedB e.metrics i c c' hm (by rw [hnotstopc, hc'notstop])
  have hlen1 : (e.metrics.set i c').length = e.metrics.length :=
    List.length_set e.metrics i c'
  have hmem_new : ∀ x ∈ e.completedMetrics, ∃ (j : Nat) (cj : Metric),
      (e.metrics.set i c')[j]? = some cj ∧ stoppedB cj = true ∧
      x = refLookup e.reference cj.name := by
    intro x hx
    obtain ⟨j, cj, hj, hstopj, heq⟩ := h.comp_mem x hx
    by_cases hij : i = j
    · exfalso
      subst hij
      rw [hm] at hj
      cases hj
      rw [hnotstopc] at hstopj
      exact Bool.noConfusion hstopj
    · exact ⟨j, cj, by rw [hget j]; simp [hij, hj], hstopj, heq⟩
  by_cases hbidol : e.base.status = Status.idol
  · -- first start observed while the experience is idle: the experience
    -- performs its own start at the child's start time
    have hallidol := h.idol_no_start hbidol
    have hcountP0 : e.metrics.countP stoppedB = 0 := by
      rw [List.countP_eq_zero]
      intro a ha
      obtain ⟨j, hj⟩ := List.mem_iff_getElem?.mp ha
      have := hallidol j a hj
      simp [stoppedB, this, Status.stopped]
    have hcomp0 : e.completedMetrics.length = 0 := by
      have := h.comp_le
      omega
    have hred : onChildStart { e with metrics := e.metrics.set i c' } t
        = ({ e with
                metrics := e.metrics.set i c',
                base := { e.base with startTime := t, status := Status.inProgress } },
           [MEvent.start]) := by
      simp [onChildStart, hbidol, Metric.start]
    rw [hred]
    refine ⟨h.ref_eq, hnames1, hmem_new, h.comp_nodup, ?_, ?_, ?_, ?_, ?_, ?_, ?_, ?_, ?_,
      ?_, ?_, ?_⟩
    · show e.completedMetrics.length ≤ (e.metrics.set i c').countP stoppedB
      rw [hcountP_eq]
      exact h.comp_le
    · intro h1 _
      rw [hcomp0] at h1
      exact absurd h1 (lt_irrefl 0)
    · intro hf
      exact Bool.noConfusion hf
    · intro hf
      exact Bool.noConfusion hf
    · intro _
      show countEv (log ++ [MEvent.start]) MEvent.stop = 0
      simp only [countEv, List.count_append]
      rw [show List.count MEvent.stop log = 0 from
        h.stop_count_zero (by rw [hbidol]; rfl)]
      decide
    · intro _
      show countEv (log ++ [MEvent.start]) MEvent.start = 1
      simp only [countEv, List.count_append]
      rw [show List.count MEvent.start log = 0 from h.start_count_zero hbidol]
      decide
    · intro hf
      exact Status.noConfusion hf
    · intro hf
      exact Status.noConfusion hf
    · intro _
      show Status.inProgress ≠ Status.idol
      intro hf
      exact Status.noConfusion hf
    · intro j cj hj hsj
      show t ≤ cj.startTime
      by_cases hij : i = j
      · subst hij
        rw [hget i, if_pos rfl] at hj
        cases hj
        rw [hstart]
      · rw [hget j, if_neg hij] at hj
        have hjidol := hallidol j cj hj
        rw [show startedB cj = false by simp [startedB, hjidol]] at hsj
        exact Bool.noConfusion hsj
    · intro _
      exact ⟨i, c', by rw [hget i]; simp, hc'started, by rw [hstart]⟩
    · intro hn
      show e.completedMetrics.length = (e.metrics.set i c').countP stoppedB
      rw [hcountP_eq, hcountP0, hcomp0]
  · -- the experience is already started: only the start time is lowered
    have hbnotstop : e.base.status.stopped = false := by
      cases hbs : e.base.status.stopped
      · rfl
      · exfalso
        have hc2 := (h.stopped_all hbs).1 i c hm
        rw [hnotstopc] at hc2
        exact Bool.noConfusion hc2
    have hred : onChildStart { e with metrics := e.metrics.set i c' } t
        = ({ e with
                metrics := e.metrics.set i c',
                base := { e.base with startTime := min t e.base.startTime } },
           []) := by
      simp [onChildStart, hbidol]
    rw [hred, List.append_nil]
    refine ⟨h.ref_eq, hnames1, hmem_new, h.comp_nodup, ?_, ?_, ?_, ?_, ?_, ?_, ?_, ?_, ?_,
      ?_, ?_, ?_⟩
    · show e.completedMetrics.length ≤ (e.metrics.set i c').countP stoppedB
      rw [hcountP_eq]
      exact h.comp_le
    · intro h1 h2
      rw [hlen1] at h2
      exact h.comp_full h1 h2
    · intro hstop
      rw [hbnotstop] at hstop
      exact Bool.noConfusion hstop
    · intro hstop
      rw [hbnotstop] at hstop
      exact Bool.noConfusion hstop
    · show e.base.status.stopped = false → countEv log MEvent.stop = 0
      exact h.stop_count_zero
    · show e.base.status ≠ Status.idol → countEv log MEvent.start = 1
      exact h.start_count_pos
    · intro hidol
      exact absurd hidol hbidol
    · intro hidol
      exact absurd hidol hbidol
    · intro _
      exact hbidol
    · intro j cj hj hsj
      show min t e.base.startTime ≤ cj.startTime
      by_cases hij : i = j
      · subst hij
        rw [hget i, if_pos rfl] at hj
        cases hj
        rw [hstart]
        exact min_le_left t e.base.startTime
      · rw [hget j, if_neg hij] at hj
        exact le_trans (min_le_right t e.base.startTime) (h.start_lb j cj hj hsj)
    · intro _
      rcases le_total t e.base.startTime with hle | hle
      · refine ⟨i, c', by rw [hget i]; simp, hc'started, ?_⟩
        show c'.startTime = min t e.base.startTime
        rw [hstart, min_eq_left hle]
      · obtain ⟨j, cj, hj, hsj, heqj⟩ := h.start_wit hbidol
        have hij : i ≠ j := by
          intro hij
          subst hij
          rw [hm] at hj
          cases hj
          rw [hnotstartc] at hsj
          exact Bool.noConfusion hsj
        refine ⟨j, cj, by rw [hget j]; simp [hij, hj], hsj, ?_⟩
        show cj.startTime = min t e.base.startTime
        rw [min_eq_right hle, heqj]
    · intro hn
      show e.completedMetrics.length = (e.metrics.set i c').countP stoppedB
      rw [hcountP_eq]
      exact h.comp_count hn

/-- A child's guarded stop with a terminal status preserves the
invariant. -/
theorem expInv_childStopWith (cs : List String) (e : ExperienceMetric) (log : List MEvent)
    (i : Nat) (t : Int) (st : Status)
    (hst : st.stopped = true)
    (h : ExpInv cs e log) :
    ExpInv cs (e.childStopWith i t st).1 (log ++ (e.childStopWith i t st).2) := by
  cases hm : e.metrics[i]? with
  | none =>
    have hred : e.childStopWith i t st = (e, []) := by
      simp [ExperienceMetric.childStopWith, hm]
    rw [hred, List.append_nil]
    exact h
  | some c =>
    by_cases hcs : c.status = Status.inProgress
    · have hred : e.childStopWith i t st
          = onChildStop
              { e with
                  metrics := e.metrics.set i
                    { c with
                        stopTime := t,
                        duration := t - c.startTime,
                        status := st } }
              c.name := by
        simp [ExperienceMetric.childStopWith, hm, Metric.stop, hcs]
      rw [hred]
      refine expInv_onChildStop cs e log i c _ h hm hcs rfl rfl ?_ ?_
      · exact hst
      · show (st != Status.idol) = true
        cases st with
        | idol => exact Bool.noConfusion hst
        | failed => rfl
        | inProgress => exact Bool.noConfusion hst
        | complete => rfl
    · have hred : e.childStopWith i t st = (e, []) := by
        simp [ExperienceMetric.childStopWith, hm, Metric.stop, hcs]
      rw [hred, List.append_nil]
      exact h

/-- Every basic operation (child start or stop transitions) preserves the
invariant. -/
theorem expInv_step (cs : List String) (e : ExperienceMetric) (log : List MEvent)
    (op : EOp) (hb : basicOp op = true) (h : ExpInv cs e log) :
    ExpInv cs (e.step op).1 (log ++ (e.step op).2) := by
  cases op with
  | cstart i t =>
    cases hm : e.metrics[i]? with
    | none =>
      have hred : e.step (EOp.cstart i t) = (e, []) := by
        simp [ExperienceMetric.step, hm]
      rw [hred, List.append_nil]
      exact h
    | some c =>
      by_cases hcs : c.status = Status.idol
      · have hred : e.step (EOp.cstart i t)
            = onChildStart
                { e with
                    metrics := e.metrics.set i
                      { c with
                          startTime := t,
                          status := Status.inProgress } }
                t := by
          simp [ExperienceMetric.step, hm, Metric.start, hcs]
        rw [hred]
        exact expInv_onChildStart cs e log i c _ t h hm hcs rfl rfl rfl
      · have hred : e.step (EOp.cstart i t) = (e, []) := by
          simp [ExperienceMetric.step, hm, Metric.start, hcs]
        rw [hred, List.append_nil]
        exact h
  | cstop i t => exact expInv_childStopWith cs e log i t Status.complete rfl h
  | csucceed i t => exact expInv_childStopWith cs e log i t Status.complete rfl h
  | cfail i t => exact expInv_childStopWith cs e log i t Status.failed rfl h
  | creset i => exact Bool.noConfusion hb
  | estart t => exact Bool.noConfusion hb
  | estop t => exact Bool.noConfusion hb
  | ereset => exact Bool.noConfusion hb

/-- Any sequence of basic operations preserves the invariant. -/
theorem expInv_runAcc (cs : List String) (ops : List EOp) :
    ∀ (e : ExperienceMetric) (log : List MEvent),
      (∀ op ∈ ops, basicOp op = true) → ExpInv cs e log →
      ExpInv cs (e.runAcc log ops).1 (e.runAcc log ops).2 := by
  induction ops with
  | nil =>
    intro e log _ h
    exact h
  | cons op rest ih =>
    intro e log hops h
    show ExpInv cs (ExperienceMetric.runAcc _ _ rest).1 (ExperienceMetric.runAcc _ _ rest).2
    exact ih (e.step op).1 (log ++ (e.step op).2)
      (fun o ho => hops o (List.mem_cons_of_mem _ ho))
      (expInv_step cs e log op (hops op (List.mem_cons_self _ _)) h)

/-- A left fold of `min` never exceeds its initial accumulator. -/
theorem foldl_min_le_init (xs : List Int) : ∀ a : Int, xs.foldl min a ≤ a := by
  induction xs with
  | nil => intro a; exact le_refl a
  | cons x xs ih => intro a; exact le_trans (ih (min a x)) (min_le_left a x)

/-- A left fold of `min` never exceeds any list element. -/
theorem foldl_min_le_mem (xs : List Int) : ∀ (a x : Int), x ∈ xs → xs.foldl min a ≤ x := by
  induction xs with
  | nil => intro a x hx; simp at hx
  | cons y ys ih =>
    intro a x hx
    rcases List.mem_cons.mp hx with rfl | hx2
    · exact le_trans (foldl_min_le_init ys (min a x)) (min_le_right a x)
    · exact ih (min a y) x hx2

/-- A lower bound of the accumulator and all elements bounds a left fold
of `min`. -/
theorem le_foldl_min (xs : List Int) : ∀ (a x : Int), x ≤ a → (∀ y ∈ xs, x ≤ y) →
    x ≤ xs.foldl min a := by
  induction xs with
  | nil => intro a x hxa _; exact hxa
  | cons y ys ih =>
    intro a x hxa hall
    exact ih (min a y) x (le_min hxa (hall y (List.mem_cons_self y ys)))
      (fun z hz => hall z (List.mem_cons_of_mem _ hz))

/-- `listMin` of a list equals any member that bounds the list below. -/
theorem listMin_eq_of (l : List Int) (x : Int) (hmem : x ∈ l)
    (hlb : ∀ y ∈ l, x ≤ y) : listMin l = x := by
  cases l with
  | nil => simp at hmem
  | cons a xs =>
    rw [listMin]
    apply le_antisymm
    · rcases List.mem_cons.mp hmem with rfl | hx
      · exact foldl_min_le_init xs x
      · exact foldl_min_le_mem xs a x hx
    · exact le_foldl_min xs a x (hlb a (List.mem_cons_self a xs))
        (fun y hy => hlb y (List.mem_cons_of_mem _ hy))

/-- `start` preserves the timing invariant. -/
theorem invMetric_start (s : Metric) (t : Int) (h : invMetric s) :
    invMetric (s.start t).1 := by
  rw [Metric.start]
  split
  · exact h
  · exact ⟨fun hf => Bool.noConfusion hf, fun hf => Status.noConfusion hf⟩

/-- `stop` with a non-idle terminal status preserves the timing
invariant. -/
theorem invMetric_stop (s : Metric) (t : Int) (st : Status)
    (hst : st ≠ Status.idol) (h : invMetric s) : invMetric (s.stop t st).1 := by
  rw [Metric.stop]
  split
  · exact h
  · exact ⟨fun _ => rfl, fun hf => absurd hf hst⟩

/-- `reset` establishes the timing invariant. -/
theorem invMetric_reset (s : Metric) : invMetric (s.reset).1 :=
  ⟨fun hf => Bool.noConfusion hf, fun _ => ⟨rfl, rfl⟩⟩

/-- A fresh metric satisfies the timing invariant. -/
theorem invMetric_mkMetric (nm : String) : invMetric (mkMetric nm) :=
  ⟨fun hf => Bool.noConfusion hf, fun _ => ⟨rfl, rfl⟩⟩

/-- Every sequence of public calls on a plain metric preserves the timing
invariant. -/
theorem invMetric_runActs (ops : List MAct) :
    ∀ s : Metric, invMetric s → invMetric (s.runActs ops).1 := by
  induction ops with
  | nil => intro s h; exact h
  | cons op rest ih =>
    intro s h
    show invMetric (((s.stepAct op).1.runActs rest).1)
    apply ih
    cases op with
    | mstart t => exact invMetric_start s t h
    | mstop t => exact invMetric_stop s t Status.complete (fun hf => Status.noConfusion hf) h
    | mreset => exact invMetric_reset s

/-- Every sequence of public calls on an interaction metric preserves the
timing invariant of its base fields. -/
theorem invInteraction_runActs (ops : List Act) :
    ∀ s : InteractionMetric, invMetric s.base → invMetric ((s.runActs ops).1).base := by
  induction ops with
  | nil => intro s h; exact h
  | cons op rest ih =>
    intro s h
    show invMetric ((((s.stepAct op).1.runActs rest).1).base)
    apply ih
    cases op with
    | astart t => exact invMetric_start s.base t h
    | astop t => exact invMetric_stop s.base t Status.complete (fun hf => Status.noConfusion hf) h
    | asucceed d t =>
      exact invMetric_stop s.base t Status.complete (fun hf => Status.noConfusion hf) h
    | afail d t =>
      exact invMetric_stop s.base t Status.failed (fun hf => Status.noConfusion hf) h
    | areset => exact invMetric_reset s.base

/-- A child's guarded stop (with the listener) preserves the experience's
timing invariant. -/
theorem invExperience_childStopWith (e : ExperienceMetric) (i : Nat) (t : Int)
    (st : Status) (hst : st ≠ Status.idol) (h : invExperience e) :
    invExperience (e.childStopWith i t st).1 := by
  obtain ⟨hbase, hkids⟩ := h
  cases hm : e.metrics[i]? with
  | none =>
    have hred : (e.childStopWith i t st).1 = e := by
      simp [ExperienceMetric.childStopWith, hm]
    rw [hred]
    exact ⟨hbase, hkids⟩
  | some c =>
    by_cases hcs : c.status = Status.inProgress
    · have hred : e.childStopWith i t st
          = onChildStop
              { e with
                  metrics := e.metrics.set i
                    { c with
                        stopTime := t,
                        duration := t - c.startTime,
                        status := st } }
              c.name := by
        simp [ExperienceMetric.childStopWith, hm, Metric.stop, hcs]
      rw [hred]
      have hkids1 : ∀ x ∈ e.metrics.set i
          { c with stopTime := t, duration := t - c.startTime, status := st },
          invMetric x := by
        intro x hx
        rcases List.mem_or_eq_of_mem_set hx with hx1 | rfl
        · exact hkids x hx1
        · exact ⟨fun _ => rfl, fun hf => absurd hf hst⟩
      by_cases hid : refLookup e.reference c.name ∈ e.completedMetrics
      · have hred2 : (onChildStop
            { e with
                metrics := e.metrics.set i
                  { c with
                      stopTime := t,
                      duration := t - c.startTime,
                      status := st } }
            c.name).1
            = { e with
                  metrics := e.metrics.set i
                    { c with
                        stopTime := t,
                        duration := t - c.startTime,
                        status := st } } := by
          simp [onChildStop, hid]
        rw [hred2]
        exact ⟨hbase, hkids1⟩
      · by_cases hlen : e.completedMetrics.length + 1 = e.metrics.length
        · have hred2 : (onChildStop
              { e with
                  metrics := e.metrics.set i
                    { c with
                        stopTime := t,
                        duration := t - c.startTime,
                        status := st } }
              c.name).1
              = { e with
                    metrics := e.metrics.set i
                      { c with
                          stopTime := t,
                          duration := t - c.startTime,
                          status := st },
                    completedMetrics := refLookup e.reference c.name :: e.completedMetrics,
                    base := (e.base.stop
                      (listMax ((e.metrics.set i
                        { c with
                            stopTime := t,
                            duration := t - c.startTime,
                            status := st }).map fun m => m.stopTime))
                      Status.complete).1 } := by
            simp [onChildStop, hid, List.length_set, hlen, Metric.stop]
          rw [hred2]
          exact ⟨invMetric_stop e.base _ Status.complete (fun hf => Status.noConfusion hf)
            hbase, hkids1⟩
        · have hred2 : (onChildStop
              { e with
                  metrics := e.metrics.set i
                    { c with
                        stopTime := t,
                        duration := t - c.startTime,
                        status := st } }
              c.name).1
              = { e with
                    metrics := e.metrics.set i
                      { c with
                          stopTime := t,
                          duration := t - c.startTime,
                          status := st },
                    completedMetrics := refLookup e.reference c.name
                      :: e.completedMetrics } := by
            simp [onChildStop, hid, List.length_set, hlen]
          rw [hred2]
          exact ⟨hbase, hkids1⟩
    · have hred : (e.childStopWith i t st).1 = e := by
        simp [ExperienceMetric.childStopWith, hm, Metric.stop, hcs]
      rw [hred]
      exact ⟨hbase, hkids⟩

/-- Any operation that is not a child start transition under a stopped
experience preserves the experience's timing invariant. -/
theorem invExperience_step (e : ExperienceMetric) (op : EOp)
    (hgood : badStart e op = false) (h : invExperience e) :
    invExperience (e.step op).1 := by
  obtain ⟨hbase, hkids⟩ := h
  cases op with
  | cstart i t =>
    cases hm : e.metrics[i]? with
    | none =>
      have hred : (e.step (EOp.cstart i t)).1 = e := by
        simp [ExperienceMetric.step, hm]
      rw [hred]
      exact ⟨hbase, hkids⟩
    | some c =>
      by_cases hcs : c.status = Status.idol
      · have hred : e.step (EOp.cstart i t)
            = onChildStart
                { e with
                    metrics := e.metrics.set i
                      { c with
                          startTime := t,
                          status := Status.inProgress } }
                t := by
          simp [ExperienceMetric.step, hm, Metric.start, hcs]
        rw [hred]
        have hkids1 : ∀ x ∈ e.metrics.set i
            { c with startTime := t, status := Status.inProgress }, invMetric x := by
          intro x hx
          rcases List.mem_or_eq_of_mem_set hx with hx1 | rfl
          · exact hkids x hx1
          · exact ⟨fun hf => Bool.noConfusion hf, fun hf => Status.noConfusion hf⟩
        by_cases hbidol : e.base.status = Status.idol
        · have hred2 : (onChildStart
              { e with
                  metrics := e.metrics.set i
                    { c with
                        startTime := t,
                        status := Status.inProgress } }
              t).1
              = { e with
                    metrics := e.metrics.set i
                      { c with
                          startTime := t,
                          status := Status.inProgress },
                    base := { e.base with
                                startTime := t,
                                status := Status.inProgress } } := by
            simp [onChildStart, hbidol, Metric.start]
          rw [hred2]
          exact ⟨⟨fun hf => Bool.noConfusion hf, fun hf => Status.noConfusion hf⟩, hkids1⟩
        · have hbstop : e.base.status.stopped = false := by
            have hb2 : badStart e (EOp.cstart i t)
                = (e.base.status.stopped && true) := by
              rw [badStart, hm]
              congr 1
              show (c.status == Status.idol) = true
              rw [hcs]
              rfl
            rw [hb2] at hgood
            simpa using hgood
          have hred2 : (onChildStart
              { e with
                  metrics := e.metrics.set i
                    { c with
                        startTime := t,
                        status := Status.inProgress } }
              t).1
              = { e with
                    metrics := e.metrics.set i
                      { c with
                          startTime := t,
                          status := Status.inProgress },
                    base := { e.base with
                                startTime := min t e.base.startTime } } := by
            simp [onChildStart, hbidol]
          rw [hred2]
          refine ⟨⟨?_, ?_⟩, hkids1⟩
          · intro hf
            rw [show ({ e.base with startTime := min t e.base.startTime } : Metric).status
              = e.base.status from rfl, hbstop] at hf
            exact Bool.noConfusion hf
          · intro hf
            exact absurd hf hbidol
      · have hred : (e.step (EOp.cstart i t)).1 = e := by
          simp [ExperienceMetric.step, hm, Metric.start, hcs]
        rw [hred]
        exact ⟨hbase, hkids⟩
  | cstop i t =>
    exact invExperience_childStopWith e i t Status.complete
      (fun hf => Status.noConfusion hf) ⟨hbase, hkids⟩
  | csucceed i t =>
    exact invExperience_childStopWith e i t Status.complete
      (fun hf => Status.noConfusion hf) ⟨hbase, hkids⟩
  | cfail i t =>
    exact invExperience_childStopWith e i t Status.failed
      (fun hf => Status.noConfusion hf) ⟨hbase, hkids⟩
  | creset i =>
    cases hm : e.metrics[i]? with
    | none =>
      have hred : (e.step (EOp.creset i)).1 = e := by
        simp [ExperienceMetric.step, hm]
      rw [hred]
      exact ⟨hbase, hkids⟩
    | some c =>
      have hred : (e.step (EOp.creset i)).1
          = { e with metrics := e.metrics.set i (c.reset).1 } := by
        simp [ExperienceMetric.step, hm]
      rw [hred]
      refine ⟨hbase, ?_⟩
      intro x hx
      rcases List.mem_or_eq_of_mem_set hx with hx1 | rfl
      · exact hkids x hx1
      · exact invMetric_reset c
  | estart t =>
    show invExperience { e with base := (e.base.start t).1 }
    exact ⟨invMetric_start e.base t hbase, hkids⟩
  | estop t =>
    show invExperience { e with base := (e.base.stop t Status.complete).1 }
    exact ⟨invMetric_stop e.base t Status.complete (fun hf => Status.noConfusion hf) hbase,
      hkids⟩
  | ereset =>
    show invExperience { e with
      metrics := e.metrics.map fun c => (Metric.reset c).1,
      base := ({ e with metrics := e.metrics.map fun c => (Metric.reset c).1 }.base.reset).1,
      completedMetrics := [] }
    refine ⟨invMetric_reset e.base, ?_⟩
    intro x hx
    obtain ⟨c, _, rfl⟩ := List.mem_map.mp hx
    exact invMetric_reset c

/-- Runs with no child start transition under a stopped experience
preserve the experience's timing invariant. -/
theorem invExperience_goodRun (ops : List EOp) :
    ∀ (e : ExperienceMetric) (log : List MEvent),
      goodRun e ops = true → invExperience e →
      invExperience (e.runAcc log ops).1 := by
  induction ops with
  | nil => intro e log _ h; exact h
  | cons op rest ih =>
    intro e log hg h
    rw [goodRun] at hg
    obtain ⟨h1, h2⟩ := Bool.and_eq_true _ _ |>.mp hg
    show invExperience ((e.step op).1.runAcc (log ++ (e.step op).2) rest).1
    exact ih _ _ h2 (invExperience_step e op (by simpa using h1) h)

/-! ## Claim theorems -/

/-- C2 (amended with pairwise-distinct child names): at every point of a
run driven by child start/stop transitions, the experience has emitted its
`stop` exactly once if every child has stopped and zero times otherwise
(so a proper subset of stopped children never triggers it and it never
fires twice), and when it has fired, the experience's `stopTime` is the
maximum of the children's stop times. -/
theorem experience_stop_fires_once_with_distinct_names :
    ∀ (nm : String) (cs : List String) (ops : List EOp) (k : Nat),
      cs ≠ [] → cs.Nodup → (∀ op ∈ ops, basicOp op = true) →
      countEv (ExperienceMetric.run (mkExperience nm cs) (ops.take k)).2 MEvent.stop
          = (if allStoppedB (ExperienceMetric.run (mkExperience nm cs) (ops.take k)).1
             then 1 else 0)
      ∧ (allStoppedB (ExperienceMetric.run (mkExperience nm cs) (ops.take k)).1 = true →
          (ExperienceMetric.run (mkExperience nm cs) (ops.take k)).1.base.stopTime
            = listMax ((ExperienceMetric.run (mkExperience nm cs)
                (ops.take k)).1.metrics.map fun m => m.stopTime)) := by
  intro nm cs ops k hne hn hops
  have htake : ∀ op ∈ ops.take k, basicOp op = true :=
    fun op ho => hops op (List.take_subset k ops ho)
  set r := ExperienceMetric.run (mkExperience nm cs) (ops.take k) with hrdef
  have hinv : ExpInv cs r.1 r.2 :=
    expInv_runAcc cs (ops.take k) (mkExperience nm cs) [] htake (expInv_init nm cs)
  obtain ⟨href, hnames, hcmem, hcnodup, hcle, hcfull, hstopall, hscp, hscz, hstcp, hstcz,
    hidolno, hstni, hslb, hswit, hccount⟩ := hinv
  have hlencs : r.1.metrics.length = cs.length := by
    rw [← hnames, List.length_map]
  cases hall : allStoppedB r.1 with
  | true =>
    have hallm : ∀ c ∈ r.1.metrics, stoppedB c = true := List.all_eq_true.mp hall
    have hcountP : r.1.metrics.countP stoppedB = r.1.metrics.length :=
      List.countP_eq_length.mpr hallm
    have hcl : r.1.completedMetrics.length = r.1.metrics.length :=
      (hccount hn).trans hcountP
    have hpos : 0 < r.1.completedMetrics.length := by
      rw [hcl, hlencs]
      exact List.length_pos.mpr hne
    have hstop : r.1.base.status.stopped = true := hcfull hpos hcl
    refine ⟨?_, fun _ => (hstopall hstop).2.2⟩
    rw [hscp hstop]
    rfl
  | false =>
    have hbstop : r.1.base.status.stopped = false := by
      cases hbs : r.1.base.status.stopped
      · rfl
      · exfalso
        have hallm : allStoppedB r.1 = true := by
          apply List.all_eq_true.mpr
          intro c hc
          obtain ⟨j, hj⟩ := List.mem_iff_getElem?.mp hc
          exact (hstopall hbs).1 j c hj
        rw [hall] at hallm
        exact Bool.noConfusion hallm
    refine ⟨?_, ?_⟩
    · rw [hscz hbstop]
      rfl
    · intro hf
      exact Bool.noConfusion hf

/-- C2 witness: the spec's own three-child scenario, starts at 100, 50,
200 and stops at 300, 500, 400: one stop event, `stopTime = 500`. -/
theorem experience_stop_fires_once_with_distinct_names_witness :
    ((["A", "B", "C"] : List String) ≠ [] ∧ (["A", "B", "C"] : List String).Nodup
      ∧ (∀ op ∈ [EOp.cstart 0 100, EOp.cstart 1 50, EOp.cstart 2 200,
          EOp.cstop 0 300, EOp.cstop 1 500, EOp.cstop 2 400], basicOp op = true))
    ∧ (countEv (ExperienceMetric.run (mkExperience "E" ["A", "B", "C"])
        ([EOp.cstart 0 100, EOp.cstart 1 50, EOp.cstart 2 200,
          EOp.cstop 0 300, EOp.cstop 1 500, EOp.cstop 2 400].take 6)).2 MEvent.stop
          = (if allStoppedB (ExperienceMetric.run (mkExperience "E" ["A", "B", "C"])
              ([EOp.cstart 0 100, EOp.cstart 1 50, EOp.cstart 2 200,
                EOp.cstop 0 300, EOp.cstop 1 500, EOp.cstop 2 400].take 6)).1
             then 1 else 0)
      ∧ (allStoppedB (ExperienceMetric.run (mkExperience "E" ["A", "B", "C"])
          ([EOp.cstart 0 100, EOp.cstart 1 50, EOp.cstart 2 200,
            EOp.cstop 0 300, EOp.cstop 1 500, EOp.cstop 2 400].take 6)).1 = true →
          (ExperienceMetric.run (mkExperience "E" ["A", "B", "C"])
            ([EOp.cstart 0 100, EOp.cstart 1 50, EOp.cstart 2 200,
              EOp.cstop 0 300, EOp.cstop 1 500, EOp.cstop 2 400].take 6)).1.base.stopTime
            = listMax ((ExperienceMetric.run (mkExperience "E" ["A", "B", "C"])
                ([EOp.cstart 0 100, EOp.cstart 1 50, EOp.cstart 2 200,
                  EOp.cstop 0 300, EOp.cstop 1 500,
                  EOp.cstop 2 400].take 6)).1.metrics.map fun m => m.stopTime))) :=
  ⟨⟨by decide, by decide, by decide⟩,
   experience_stop_fires_once_with_distinct_names "E" ["A", "B", "C"]
     [EOp.cstart 0 100, EOp.cstart 1 50, EOp.cstart 2 200,
      EOp.cstop 0 300, EOp.cstop 1 500, EOp.cstop 2 400] 6
     (by decide) (by decide) (by decide)⟩

/-- C3: at every point of a run driven by child start/stop transitions,
the experience has emitted its `start` exactly once if some child has
started and zero times otherwise; and once every child has started, the
experience's `startTime` is the minimum of the children's start times. -/
theorem experience_start_fires_once_with_min_time :
    ∀ (nm : String) (cs : List String) (ops : List EOp) (k : Nat),
      cs ≠ [] → (∀ op ∈ ops, basicOp op = true) →
      countEv (ExperienceMetric.run (mkExperience nm cs) (ops.take k)).2 MEvent.start
          = (if someStartedB (ExperienceMetric.run (mkExperience nm cs) (ops.take k)).1
             then 1 else 0)
      ∧ ((∀ c ∈ (ExperienceMetric.run (mkExperience nm cs) (ops.take k)).1.metrics,
            startedB c = true) →
          countEv (ExperienceMetric.run (mkExperience nm cs) (ops.take k)).2 MEvent.start = 1
          ∧ (ExperienceMetric.run (mkExperience nm cs) (ops.take k)).1.base.startTime
            = listMin ((ExperienceMetric.run (mkExperience nm cs)
                (ops.take k)).1.metrics.map fun c => c.startTime)) := by
  intro nm cs ops k hne hops
  have htake : ∀ op ∈ ops.take k, basicOp op = true :=
    fun op ho => hops op (List.take_subset k ops ho)
  set r := ExperienceMetric.run (mkExperience nm cs) (ops.take k) with hrdef
  have hinv : ExpInv cs r.1 r.2 :=
    expInv_runAcc cs (ops.take k) (mkExperience nm cs) [] htake (expInv_init nm cs)
  obtain ⟨href, hnames, hcmem, hcnodup, hcle, hcfull, hstopall, hscp, hscz, hstcp, hstcz,
    hidolno, hstni, hslb, hswit, hccount⟩ := hinv
  have hlencs : r.1.metrics.length = cs.length := by
    rw [← hnames, List.length_map]
  constructor
  · cases hss : someStartedB r.1 with
    | true =>
      obtain ⟨c, hcmem2, hcstart⟩ := List.any_eq_true.mp hss
      obtain ⟨j, hj⟩ := List.mem_iff_getElem?.mp hcmem2
      rw [hstcp (hstni ⟨j, c, hj, hcstart⟩)]
      rfl
    | false =>
      have hbidol : r.1.base.status = Status.idol := by
        by_contra hbne2
        obtain ⟨j, cj, hj, hsj, _⟩ := hswit hbne2
        have hviol : someStartedB r.1 = true :=
          List.any_eq_true.mpr ⟨cj, List.getElem?_mem hj, hsj⟩
        rw [hss] at hviol
        exact Bool.noConfusion hviol
      rw [hstcz hbidol]
      rfl
  · intro hallstart
    have hpos : 0 < r.1.metrics.length := by
      rw [hlencs]
      exact List.length_pos.mpr hne
    obtain ⟨c0, h0⟩ : ∃ c0, r.1.metrics[0]? = some c0 := by
      cases hq : r.1.metrics[0]? with
      | none =>
        rw [List.getElem?_eq_none_iff] at hq
        omega
      | some c0 => exact ⟨c0, rfl⟩
    have hs0 : startedB c0 = true := hallstart c0 (List.getElem?_mem h0)
    have hbne2 : r.1.base.status ≠ Status.idol := hstni ⟨0, c0, h0, hs0⟩
    refine ⟨hstcp hbne2, ?_⟩
    symm
    apply listMin_eq_of
    · obtain ⟨j, cj, hj, _, heqj⟩ := hswit hbne2
      exact List.mem_map.mpr ⟨cj, List.getElem?_mem hj, heqj⟩
    · intro y hy
      obtain ⟨cy, hcy, rfl⟩ := List.mem_map.mp hy
      obtain ⟨j', hj'⟩ := List.mem_iff_getElem?.mp hcy
      exact hslb j' cy hj' (hallstart cy hcy)

/-- C3 witness: the spec's scenario, children starting at 100, 50, 200:
one start event and `startTime = 50`. -/
theorem experience_start_fires_once_with_min_time_witness :
    ((["A", "B", "C"] : List String) ≠ []
      ∧ (∀ op ∈ [EOp.cstart 0 100, EOp.cstart 1 50, EOp.cstart 2 200],
          basicOp op = true))
    ∧ (countEv (ExperienceMetric.run (mkExperience "E" ["A", "B", "C"])
        ([EOp.cstart 0 100, EOp.cstart 1 50, EOp.cstart 2 200].take 3)).2 MEvent.start
          = (if someStartedB (ExperienceMetric.run (mkExperience "E" ["A", "B", "C"])
              ([EOp.cstart 0 100, EOp.cstart 1 50, EOp.cstart 2 200].take 3)).1
             then 1 else 0)
      ∧ ((∀ c ∈ (ExperienceMetric.run (mkExperience "E" ["A", "B", "C"])
            ([EOp.cstart 0 100, EOp.cstart 1 50, EOp.cstart 2 200].take 3)).1.metrics,
            startedB c = true) →
          countEv (ExperienceMetric.run (mkExperience "E" ["A", "B", "C"])
            ([EOp.cstart 0 100, EOp.cstart 1 50, EOp.cstart 2 200].take 3)).2 MEvent.start = 1
          ∧ (ExperienceMetric.run (mkExperience "E" ["A", "B", "C"])
              ([EOp.cstart 0 100, EOp.cstart 1 50, EOp.cstart 2 200].take 3)).1.base.startTime
            = listMin ((ExperienceMetric.run (mkExperience "E" ["A", "B", "C"])
                ([EOp.cstart 0 100, EOp.cstart 1 50,
                  EOp.cstart 2 200].take 3)).1.metrics.map fun c => c.startTime))) :=
  ⟨⟨by decide, by decide⟩,
   experience_start_fires_once_with_min_time "E" ["A", "B", "C"]
     [EOp.cstart 0 100, EOp.cstart 1 50, EOp.cstart 2 200] 3
     (by decide) (by decide)⟩

/-- C1: the source keys completion tracking by child `name`, not by child
instance: with two children both named "Image", each started and stopped
exactly once, both map to the same tracking ID, the completed-set holds a
single entry, the completion condition is never met, and the experience
performs no stop (it stays `inProgress`).  This evaluates the code at the
failing input of the claim. -/
theorem duplicate_child_names_block_completion :
    allStoppedB (ExperienceMetric.run (mkExperience "E" ["Image", "Image"])
      [EOp.cstart 0 1, EOp.cstart 1 2, EOp.cstop 0 3, EOp.cstop 1 4]).1 = true
    ∧ (ExperienceMetric.run (mkExperience "E" ["Image", "Image"])
      [EOp.cstart 0 1, EOp.cstart 1 2, EOp.cstop 0 3, EOp.cstop 1 4]).1.completedMetrics
        = [some 1]
    ∧ countEv (ExperienceMetric.run (mkExperience "E" ["Image", "Image"])
      [EOp.cstart 0 1, EOp.cstart 1 2, EOp.cstop 0 3, EOp.cstop 1 4]).2 MEvent.stop = 0
    ∧ (ExperienceMetric.run (mkExperience "E" ["Image", "Image"])
      [EOp.cstart 0 1, EOp.cstart 1 2, EOp.cstop 0 3, EOp.cstop 1 4]).1.base.status
        = Status.inProgress := by
  decide

/-- C2 counterexample: an experience whose two children share the name
"Widget" never fires its stop, although every child instance has stopped
exactly once — refuting the claim as stated for arbitrary child lists. -/
theorem stop_event_missing_when_names_collide :
    allStoppedB (ExperienceMetric.run (mkExperience "X" ["Widget", "Widget"])
      [EOp.cstart 0 10, EOp.cstart 1 20, EOp.cstop 0 30, EOp.cstop 1 40]).1 = true
    ∧ countEv (ExperienceMetric.run (mkExperience "X" ["Widget", "Widget"])
      [EOp.cstart 0 10, EOp.cstart 1 20, EOp.cstop 0 30, EOp.cstop 1 40]).2 MEvent.stop
        ≠ 1 := by
  decide

/-- C4 counterexample: start child 0 at 100, stop the experience directly
at 200, then start child 1 at 50.  The start listener lowers the
experience's `startTime` to 50 while its status is already `complete`,
leaving `duration = 100` but `stopTime - startTime = 150`. -/
theorem duration_invariant_fails_after_late_child_start :
    (ExperienceMetric.run (mkExperience "E" ["A", "B"])
      [EOp.cstart 0 100, EOp.estop 200, EOp.cstart 1 50]).1.base.status = Status.complete
    ∧ (ExperienceMetric.run (mkExperience "E" ["A", "B"])
      [EOp.cstart 0 100, EOp.estop 200, EOp.cstart 1 50]).1.base.duration = 100
    ∧ (ExperienceMetric.run (mkExperience "E" ["A", "B"])
      [EOp.cstart 0 100, EOp.estop 200, EOp.cstart 1 50]).1.base.stopTime
      - (ExperienceMetric.run (mkExperience "E" ["A", "B"])
      [EOp.cstart 0 100, EOp.estop 200, EOp.cstart 1 50]).1.base.startTime = 150 := by
  decide

/-- C4 (amended): the timing invariant — `duration = stopTime - startTime`
whenever the status is `complete` or `failed`, and `stopTime = 0`,
`duration = 0` whenever the status is `idol` — holds for every reachable
state of a `Metric` and of an `InteractionMetric` under arbitrary call
sequences, and for an `ExperienceMetric` (its own fields and every
child's) under every sequence in which no child performs a start
transition while the experience is already stopped. -/
theorem timing_invariant_holds :
    (∀ (nm : String) (ops : List MAct), invMetric ((mkMetric nm).runActs ops).1)
    ∧ (∀ (nm : String) (ops : List Act), invMetric (((mkInteraction nm).runActs ops).1).base)
    ∧ (∀ (nm : String) (cs : List String) (ops : List EOp),
        goodRun (mkExperience nm cs) ops = true →
        invExperience (ExperienceMetric.run (mkExperience nm cs) ops).1) := by
  refine ⟨?_, ?_, ?_⟩
  · intro nm ops
    exact invMetric_runActs ops (mkMetric nm) (invMetric_mkMetric nm)
  · intro nm ops
    exact invInteraction_runActs ops (mkInteraction nm) (invMetric_mkMetric nm)
  · intro nm cs ops hg
    refine invExperience_goodRun ops (mkExperience nm cs) [] hg ⟨invMetric_mkMetric nm, ?_⟩
    intro x hx
    obtain ⟨n2, _, rfl⟩ := List.mem_map.mp hx
    exact invMetric_mkMetric n2

/-- C4 witness: a two-child run in which both children start and stop and
the experience completes. -/
theorem timing_invariant_holds_witness :
    goodRun (mkExperience "E" ["A", "B"])
      [EOp.cstart 0 100, EOp.cstart 1 50, EOp.cstop 0 300, EOp.cstop 1 200] = true
    ∧ invExperience (ExperienceMetric.run (mkExperience "E" ["A", "B"])
        [EOp.cstart 0 100, EOp.cstart 1 50, EOp.cstop 0 300, EOp.cstop 1 200]).1 :=
  ⟨by decide,
   timing_invariant_holds.2.2 "E" ["A", "B"]
     [EOp.cstart 0 100, EOp.cstart 1 50, EOp.cstop 0 300, EOp.cstop 1 200] (by decide)⟩

/-- C5 counterexample: a freshly constructed metric serializes with status
string "idol" (the source's spelling), which is not "idle" and not among
the four status strings stated in the claim. -/
theorem fresh_metric_serializes_idol_not_idle :
    (Metric.toJSON (mkMetric "M")).status ≠ "idle"
    ∧ (Metric.toJSON (mkMetric "M")).status
        ∉ (["idle", "inProgress", "complete", "failed"] : List String)
    ∧ (Metric.toJSON (mkMetric "M")).status = "idol" := by
  decide

/-- C5 (amended): `toJSON` produces exactly the fields `name`,
`startTime`, `stopTime`, `duration`, `plugins`, `status`, with the status
drawn from the four strings "idol", "inProgress", "complete", "failed";
a freshly constructed or reset metric serializes with status "idol". -/
theorem toJSON_shape_and_status_strings :
    ∀ s : Metric,
      Metric.toJSON s = MetricJSON.mk s.name s.startTime s.stopTime
        s.duration s.plugins s.status.toStr
      ∧ s.status.toStr ∈ (["idol", "inProgress", "complete", "failed"] : List String)
      ∧ (Metric.toJSON (mkMetric s.name)).status = "idol"
      ∧ (Metric.toJSON (s.reset).1).status = "idol" := by
  intro s
  refine ⟨rfl, ?_, rfl, rfl⟩
  cases s.status <;> simp [Status.toStr]

/-- C6: when an `InteractionMetric` is not `inProgress`, `succeed` and
`fail` leave every base timing field and the status unchanged (the guarded
base `stop` rejects the transition), yet still overwrite `data` and update
the outcome flags. -/
theorem guarded_succeed_fail_update_flags_only :
    ∀ (s : InteractionMetric) (d : Option String) (t : Int),
      s.base.status ≠ Status.inProgress →
      (s.succeed d t).1.base = s.base ∧ (s.succeed d t).1.data = d
      ∧ (s.succeed d t).1.succeeded = true ∧ (s.succeed d t).1.failed = false
      ∧ (s.fail d t).1.base = s.base ∧ (s.fail d t).1.data = d
      ∧ (s.fail d t).1.failed = true ∧ (s.fail d t).1.succeeded = false := by
  intro s d t h
  simp [InteractionMetric.succeed, InteractionMetric.fail, Metric.stop, h]

/-- C6 witness: a freshly constructed (idle) interaction metric. -/
theorem guarded_succeed_fail_update_flags_only_witness :
    (mkInteraction "I").base.status ≠ Status.inProgress
    ∧ (((mkInteraction "I").succeed (some "p") 5).1.base = (mkInteraction "I").base
      ∧ ((mkInteraction "I").succeed (some "p") 5).1.data = some "p"
      ∧ ((mkInteraction "I").succeed (some "p") 5).1.succeeded = true
      ∧ ((mkInteraction "I").succeed (some "p") 5).1.failed = false
      ∧ ((mkInteraction "I").fail (some "p") 5).1.base = (mkInteraction "I").base
      ∧ ((mkInteraction "I").fail (some "p") 5).1.data = some "p"
      ∧ ((mkInteraction "I").fail (some "p") 5).1.failed = true
      ∧ ((mkInteraction "I").fail (some "p") 5).1.succeeded = false) :=
  ⟨by decide, guarded_succeed_fail_update_flags_only (mkInteraction "I") (some "p") 5 (by decide)⟩

/-- C7: `start(0)` followed by `fail("x", 7)` yields status `failed`,
`succeeded = false`, `failed = true`, `data = "x"`, and the emitted event
sequence is `start`, then `stop`, then `failure` — the stop event is
delivered before the failure event. -/
theorem fail_after_start_sets_failed_and_emits_stop_then_failure :
    (InteractionMetric.runActs (mkInteraction "I")
      [Act.astart 0, Act.afail (some "x") 7]).1.base.status = Status.failed
    ∧ (InteractionMetric.runActs (mkInteraction "I")
      [Act.astart 0, Act.afail (some "x") 7]).1.succeeded = false
    ∧ (InteractionMetric.runActs (mkInteraction "I")
      [Act.astart 0, Act.afail (some "x") 7]).1.failed = true
    ∧ (InteractionMetric.runActs (mkInteraction "I")
      [Act.astart 0, Act.afail (some "x") 7]).1.data = some "x"
    ∧ (InteractionMetric.runActs (mkInteraction "I")
      [Act.astart 0, Act.afail (some "x") 7]).2
        = [MEvent.start, MEvent.stop, MEvent.failure] := by
  decide

/-- C8: a second (or any later) `register` call on the same plugin
instance is a warned no-op that adds no subscriptions: the accumulated
subscription set after any number of calls equals the first call's set,
and when the plugin's method names are duplicate-free each handler is
subscribed (hence invoked per transition) at most once. -/
theorem plugin_register_second_call_noop :
    ∀ (m E : List String) (rest : List (List String)),
      (registerAll (mkPlugin m) (E :: rest)).2 = subscriptionsOf m E
      ∧ (∀ E2, ((mkPlugin m).register E).1.register E2
          = (((mkPlugin m).register E).1, [], true))
      ∧ (m.Nodup → ∀ ev, invokedCount (subscriptionsOf m E) ev
          = if ev ∈ subscriptionsOf m E then 1 else 0) := by
  intro m E rest
  refine ⟨?_, ?_, ?_⟩
  · rw [registerAll, List.foldl_cons]
    have hstep : (let r := ((mkPlugin m, ([] : List String))).1.register E
        ((r.1 : PluginState), (mkPlugin m, ([] : List String)).2 ++ r.2.1))
        = (PluginState.mk true m, subscriptionsOf m E) := by
      simp [PluginState.register, mkPlugin]
    rw [hstep, registerAll_of_registered rest _ _ rfl]
  · intro E2
    simp [PluginState.register, mkPlugin]
  · intro hm ev
    have hnd : (subscriptionsOf m E).Nodup := hm.filter _
    by_cases hmem : ev ∈ subscriptionsOf m E
    · rw [if_pos hmem]
      exact Nat.le_antisymm (List.nodup_iff_count_le_one.mp hnd ev)
        (List.count_pos_iff.mpr hmem)
    · rw [if_neg hmem]
      exact List.count_eq_zero.mpr hmem

/-- C8 witness: registering twice yields exactly the first call's
subscriptions, the second call warns, and each handler fires once. -/
theorem plugin_register_second_call_noop_witness :
    ((registerAll (mkPlugin ["constructor", "stop"]) [coreEvents, coreEvents]).2
        = subscriptionsOf ["constructor", "stop"] coreEvents
      ∧ (∀ E2, ((mkPlugin ["constructor", "stop"]).register coreEvents).1.register E2
          = (((mkPlugin ["constructor", "stop"]).register coreEvents).1, [], true))
      ∧ ((["constructor", "stop"] : List String).Nodup →
          ∀ ev, invokedCount (subscriptionsOf ["constructor", "stop"] coreEvents) ev
            = if ev ∈ subscriptionsOf ["constructor", "stop"] coreEvents then 1 else 0))
    ∧ (["constructor", "stop"] : List String).Nodup :=
  ⟨plugin_register_second_call_noop ["constructor", "stop"] coreEvents [coreEvents],
   by decide⟩

/-- C9: `register` subscribes a handler only when the plugin instance
actually carries the method and the metric's event set names it, and the
`constructor` method is never subscribed: any other handler is invoked
zero times by a metric transition. -/
theorem plugin_subscribes_only_overridden_events :
    ∀ (m E : List String) (ev : String),
      (ev ∉ m ∨ ev ∉ E ∨ ev = "constructor") →
      invokedCount ((mkPlugin m).register E).2.1 ev = 0 := by
  intro m E ev h
  have hreg : ((mkPlugin m).register E).2.1 = subscriptionsOf m E := by
    simp [PluginState.register, mkPlugin]
  rw [hreg]
  rw [invokedCount, List.count_eq_zero]
  intro hmem
  rw [subscriptionsOf, List.mem_filter] at hmem
  obtain ⟨hin, hcond⟩ := hmem
  have hE : ev ∈ E := by
    have := (Bool.and_eq_true _ _).mp hcond |>.1
    simpa [List.contains_iff_exists_mem_beq] using this
  have hne : ev ≠ "constructor" := by
    have := (Bool.and_eq_true _ _).mp hcond |>.2
    simpa using this
  rcases h with h | h | h
  · exact h hin
  · exact h hE
  · exact hne h

/-- C9 witness: a plugin overriding only `stop` is never invoked for
`start` on a core metric, and `constructor` is never subscribed. -/
theorem plugin_subscribes_only_overridden_events_witness :
    (("start" : String) ∉ (["constructor", "stop"] : List String)
      ∨ ("start" : String) ∉ coreEvents ∨ ("start" : String) = "constructor")
    ∧ invokedCount ((mkPlugin ["constructor", "stop"]).register coreEvents).2.1 "start" = 0 :=
  ⟨Or.inl (by decide),
   plugin_subscribes_only_overridden_events ["constructor", "stop"] coreEvents "start"
     (Or.inl (by decide))⟩

/-- C10: `succeed` and `fail` emit their `success` / `failure` event
unconditionally: when the metric is not `inProgress` the guarded stop is
rejected, so listeners observe a `success` or `failure` event with no
accompanying `stop` event and with the status unchanged. -/
theorem outcome_events_emitted_even_when_stop_guard_rejects :
    ∀ (s : InteractionMetric) (d : Option String) (t : Int),
      s.base.status ≠ Status.inProgress →
      (s.succeed d t).2 = [MEvent.success]
      ∧ (s.fail d t).2 = [MEvent.failure]
      ∧ (s.succeed d t).1.base.status = s.base.status
      ∧ (s.fail d t).1.base.status = s.base.status := by
  intro s d t h
  simp [InteractionMetric.succeed, InteractionMetric.fail, Metric.stop, h]

/-- C10 witness: failing a never-started metric emits only `failure` and
leaves the status `idol`. -/
theorem outcome_events_emitted_even_when_stop_guard_rejects_witness :
    (mkInteraction "I").base.status ≠ Status.inProgress
    ∧ (((mkInteraction "I").succeed none 3).2 = [MEvent.success]
      ∧ ((mkInteraction "I").fail none 3).2 = [MEvent.failure]
      ∧ ((mkInteraction "I").succeed none 3).1.base.status = (mkInteraction "I").base.status
      ∧ ((mkInteraction "I").fail none 3).1.base.status = (mkInteraction "I").base.status) :=
  ⟨by decide,
   outcome_events_emitted_even_when_stop_guard_rejects (mkInteraction "I") none 3 (by decide)⟩

end Metrics
